import Mathlib

/-!
Verification development for the protobuf `Duration` generated codec
(`src/google/protobuf/duration.pb.cc`): a two-field message
(`int64 seconds = 1`, `int32 nanos = 2`, both with has-bits), with
serialization, sizing, parsing, clearing, merging and copying, plus an
unknown-field store.  The per-message functions (`_InternalSerialize`,
`ByteSizeLong`, `Clear`, `MergeImpl`, `CopyFrom`, and the parse table
`_table_`) are translated from the generated source; the shared wire-format
runtime (varint codec, generic parser fallback, unknown-field set) is not
part of the source tree and is modelled from the specification of the wire
format.
-/

/-- Modelled from the spec: two's-complement cast of a signed 64-bit value to
its unsigned 64-bit wire pattern (the `static_cast<uint64_t>` performed by
`WireFormatLite::WriteInt64ToArray` / `Int64Size`, which are runtime code
outside the source tree). -/
def u64OfInt (i : Int) : Nat := (i % (2 ^ 64)).toNat

/-- Modelled from the spec: reinterpret an unsigned 64-bit pattern as a signed
two's-complement 64-bit integer (the `int64_t` store performed by the parser).
-/
def int64OfU64 (u : Nat) : Int := if u < 2 ^ 63 then (u : Int) else (u : Int) - 2 ^ 64

/-- Modelled from the spec: reinterpret an unsigned 32-bit pattern as a signed
two's-complement 32-bit integer (the `uint32_t` store truncation performed by
`TcParser::SingularVarintNoZag1<uint32_t>` for the `nanos` field). -/
def int32OfU32 (u : Nat) : Int := if u < 2 ^ 31 then (u : Int) else (u : Int) - 2 ^ 32

/-- Modelled from the spec: little-endian base-128 varint encoding
(`each byte's high bit set except the last`).  The fuel argument bounds the
number of continuation bytes; ten bytes suffice for every value below `2^70`,
which covers all 64-bit values and all tags. -/
def encodeVarintAux : Nat → Nat → List Nat
  | 0, n => [n % 128]
  | fuel + 1, n => if n < 128 then [n] else (n % 128 + 128) :: encodeVarintAux fuel (n / 128)

/-- Modelled from the spec: varint encoding of a value below `2^70`. -/
def encodeVarint (n : Nat) : List Nat := encodeVarintAux 10 n

/-- Modelled from the spec: the byte length of a varint encoding, the sizing
counterpart of `encodeVarintAux` (the closed-form `Int64Size` of the runtime).
-/
def varintSizeAux : Nat → Nat → Nat
  | 0, _ => 1
  | fuel + 1, n => if n < 128 then 1 else 1 + varintSizeAux fuel (n / 128)

/-- Modelled from the spec: byte length of the varint encoding of a value. -/
def varintSize (n : Nat) : Nat := varintSizeAux 10 n

/-- Modelled from the spec: varint decoding with a byte limit; fails on an
empty input (`Truncated`) or when the continuation bits never terminate
within the limit (`MalformedVarint`).  Returns the decoded value and the
remaining suffix of the input. -/
def decodeVarintAux : Nat → List Nat → Option (Nat × List Nat)
  | 0, _ => none
  | _ + 1, [] => none
  | lim + 1, b :: rest =>
    if b < 128 then some (b, rest)
    else
      match decodeVarintAux lim rest with
      | none => none
      | some (v, rest2) => some ((b - 128) + 128 * v, rest2)

/-- Modelled from the spec: varint decoding with the ten-byte limit of the
wire format. -/
def decodeVarint (bytes : List Nat) : Option (Nat × List Nat) := decodeVarintAux 10 bytes

/-- Modelled from the spec: read exactly `k` bytes (`FIXED32/FIXED64 read
exact byte counts`, `LENGTH_DELIMITED reads ... exactly that many bytes`),
failing with `Truncated` when fewer remain. -/
def takeExact (k : Nat) (bytes : List Nat) : Option (List Nat × List Nat) :=
  if k ≤ bytes.length then some (bytes.take k, bytes.drop k) else none

/-- Modelled from the spec: little-endian fixed-width byte encoding of an
unsigned value, `k` bytes wide. -/
def toLEBytes : Nat → Nat → List Nat
  | 0, _ => []
  | k + 1, v => v % 256 :: toLEBytes k (v / 256)

/-- Modelled from the spec: little-endian interpretation of a byte list. -/
def fromLEBytes : List Nat → Nat
  | [] => 0
  | b :: rest => b + 256 * fromLEBytes rest

/-- Modelled from the spec: one entry of the Unknown Field Store — an ordered
sequence of unrecognized wire fields kept by field number and wire-typed
payload, exactly as the runtime `UnknownFieldSet` (outside the source tree)
stores them.  The spec's wire types are VARINT (0), FIXED64 (1),
LENGTH_DELIMITED (2) and FIXED32 (5). -/
inductive UField where
  | varint (f : Nat) (v : Nat)
  | fixed64 (f : Nat) (v : Nat)
  | lengthDelim (f : Nat) (payload : List Nat)
  | fixed32 (f : Nat) (v : Nat)
deriving DecidableEq

/-- The `Duration` message state: the `_impl_` storage (`seconds_ : int64_t`,
`nanos_ : int32_t`), the two has-bits of `_has_bits_[0]` (bit 0 for seconds,
bit 1 for nanos, per `_table_`'s field entries), and the unknown-field store
held in `_internal_metadata_`. -/
structure Duration where
  seconds : Int
  nanos : Int
  hasSeconds : Bool
  hasNanos : Bool
  unknown : List UField
deriving DecidableEq

namespace Duration

/-- The default (freshly constructed) instance: `SharedCtor` zeroes the field
storage and has-bits, with no unknown fields. -/
def default_instance : Duration :=
  { seconds := 0, nanos := 0, hasSeconds := false, hasNanos := false, unknown := [] }

/-- The bytes `_InternalSerialize` emits for `int64 seconds = 1`: guarded by
has-bit 0 (`_has_bits_[0] & 0x1`) and by `_internal_seconds() != 0`, it writes
tag byte `0x08` then the varint of the unsigned 64-bit pattern
(`WriteInt64ToArrayWithField<1>`). -/
def serializeSecondsField (d : Duration) : List Nat :=
  if d.hasSeconds = true ∧ d.seconds ≠ 0 then 8 :: encodeVarint (u64OfInt d.seconds) else []

/-- The bytes `_InternalSerialize` emits for `int32 nanos = 2`: guarded by
has-bit 1 (`_has_bits_[0] & 0x2`) and by `_internal_nanos() != 0`, it writes
tag byte `0x10` then the varint of the sign-extended 64-bit pattern
(`WriteInt32ToArrayWithField<2>`, which sign-extends negative values to ten
bytes). -/
def serializeNanosField (d : Duration) : List Nat :=
  if d.hasNanos = true ∧ d.nanos ≠ 0 then 16 :: encodeVarint (u64OfInt d.nanos) else []

/-- Modelled from the spec: wire bytes of one unknown-field entry — its tag
varint `(field_number << 3) | wire_type` followed by the payload in the
encoding of its wire type (`the Unknown Field Store is appended verbatim, in
original order, with no reinterpretation`). -/
def serializeUField : UField → List Nat
  | .varint f v => encodeVarint (8 * f) ++ encodeVarint v
  | .fixed64 f v => encodeVarint (8 * f + 1) ++ toLEBytes 8 v
  | .lengthDelim f payload => encodeVarint (8 * f + 2) ++ encodeVarint payload.length ++ payload
  | .fixed32 f v => encodeVarint (8 * f + 5) ++ toLEBytes 4 v

/-- Modelled from the spec: wire bytes of the whole Unknown Field Store, in
original order (`WireFormat::InternalSerializeUnknownFieldsToArray`). -/
def serializeUnknownFields : List UField → List Nat
  | [] => []
  | u :: rest => serializeUField u ++ serializeUnknownFields rest

/-- `Duration::_InternalSerialize`: seconds (field 1), then nanos (field 2),
then — when present — the unknown-field store. -/
def InternalSerialize (d : Duration) : List Nat :=
  serializeSecondsField d ++ serializeNanosField d ++ serializeUnknownFields d.unknown

/-- The byte count `ByteSizeLong` adds for `seconds`: under the same has-bit
and nonzero-value guards as serialization, `Int64SizePlusOne` of the value
(varint size of the unsigned pattern, plus one tag byte). -/
def secondsByteSize (d : Duration) : Nat :=
  if d.hasSeconds = true ∧ d.seconds ≠ 0 then varintSize (u64OfInt d.seconds) + 1 else 0

/-- The byte count `ByteSizeLong` adds for `nanos`: under the same guards as
serialization, `Int32SizePlusOne` of the value (varint size of the
sign-extended pattern, plus one tag byte). -/
def nanosByteSize (d : Duration) : Nat :=
  if d.hasNanos = true ∧ d.nanos ≠ 0 then varintSize (u64OfInt d.nanos) + 1 else 0

/-- Modelled from the spec: byte count of one unknown-field entry (tag varint
plus wire-typed payload), the sizing counterpart of `serializeUField`. -/
def uFieldByteSize : UField → Nat
  | .varint f v => varintSize (8 * f) + varintSize v
  | .fixed64 f _ => varintSize (8 * f + 1) + 8
  | .lengthDelim f payload => varintSize (8 * f + 2) + varintSize payload.length + payload.length
  | .fixed32 f _ => varintSize (8 * f + 5) + 4

/-- Modelled from the spec: byte count of the Unknown Field Store
(`ComputeUnknownFieldsSize`, added by `MaybeComputeUnknownFieldsSize`). -/
def unknownFieldsByteSize : List UField → Nat
  | [] => 0
  | u :: rest => uFieldByteSize u + unknownFieldsByteSize rest

/-- `Duration::ByteSizeLong`: the independent sizing pass — seconds size plus
nanos size plus the unknown-field store size. -/
def ByteSizeLong (d : Duration) : Nat :=
  secondsByteSize d + nanosByteSize d + unknownFieldsByteSize d.unknown

/-- `Duration::Clear`: when any of the two has-bits is set
(`cached_has_bits & 0x3`), `memset` zeroes both value slots; the has-bits are
always cleared, and `_internal_metadata_.Clear` drops the unknown-field
store. -/
def Clear (d : Duration) : Duration :=
  { seconds := if d.hasSeconds = true ∨ d.hasNanos = true then 0 else d.seconds,
    nanos := if d.hasSeconds = true ∨ d.hasNanos = true then 0 else d.nanos,
    hasSeconds := false,
    hasNanos := false,
    unknown := [] }

/-- `Duration::MergeImpl`: for each field, the source value overwrites the
destination only when the source has-bit is set and the source value is
nonzero; the destination has-bits are OR-ed with the source's; the source's
unknown fields are appended after the destination's (the runtime metadata
merge, which the spec describes as concatenation). -/
def MergeImpl (dst src : Duration) : Duration :=
  { seconds :=
      if src.hasSeconds = true ∧ src.seconds ≠ 0 then src.seconds else dst.seconds,
    nanos :=
      if src.hasNanos = true ∧ src.nanos ≠ 0 then src.nanos else dst.nanos,
    hasSeconds := dst.hasSeconds || src.hasSeconds,
    hasNanos := dst.hasNanos || src.hasNanos,
    unknown := dst.unknown ++ src.unknown }

/-- `Duration::CopyFrom`: `if (&from == this) return; Clear(); MergeFrom(from);`.
The pointer-equality test is modelled by the `sameObject` flag, true exactly
when `from` aliases `this`. -/
def CopyFrom (this_ from_ : Duration) (sameObject : Bool) : Duration :=
  if sameObject then this_ else MergeImpl (Clear this_) from_

/-- Modelled from the spec: the generated per-field accessor `clear_nanos` —
`Clear(field)` resets the value to the default and clears the presence bit
(the accessor lives in the generated header, outside the source tree). -/
def clear_nanos (d : Duration) : Duration :=
  { d with nanos := 0, hasNanos := false }

end Duration

/-- Modelled from the spec: the table-driven parse loop over the wire bytes,
specialised by `Duration::_table_`.  Each iteration decodes a tag varint;
tag `0x08` (field 1, VARINT) stores the 64-bit value into `seconds` and sets
has-bit 0; tag `0x10` (field 2, VARINT) stores the low 32 bits into `nanos`
and sets has-bit 1 (`SingularVarintNoZag1<uint32_t>`); field number 0 and
field numbers at or above `2^29` are malformed; every other field, and any
wire-type mismatch on fields 1 and 2, takes the `GenericFallback` path, which
appends the tag and raw payload to the Unknown Field Store.  Wire types 3 and
4 are outside the spec's wire format.  The fuel argument bounds the number of
fields; each field consumes at least one byte, so the input length suffices.
-/
def ParseLoop : Nat → List Nat → Duration → Option Duration
  | 0, bytes, d => if bytes = [] then some d else none
  | fuel + 1, bytes, d =>
    if bytes = [] then some d
    else
      match decodeVarint bytes with
      | none => none
      | some (tag, rest) =>
        let f := tag / 8
        let wt := tag % 8
        if f = 0 then none
        else if 2 ^ 29 ≤ f then none
        else if f = 1 ∧ wt = 0 then
          match decodeVarint rest with
          | none => none
          | some (v, rest2) =>
            ParseLoop fuel rest2
              { d with seconds := int64OfU64 (v % 2 ^ 64), hasSeconds := true }
        else if f = 2 ∧ wt = 0 then
          match decodeVarint rest with
          | none => none
          | some (v, rest2) =>
            ParseLoop fuel rest2
              { d with nanos := int32OfU32 (v % 2 ^ 32), hasNanos := true }
        else if wt = 0 then
          match decodeVarint rest with
          | none => none
          | some (v, rest2) =>
            ParseLoop fuel rest2
              { d with unknown := d.unknown ++ [UField.varint f (v % 2 ^ 64)] }
        else if wt = 1 then
          match takeExact 8 rest with
          | none => none
          | some (payload, rest2) =>
            ParseLoop fuel rest2
              { d with unknown := d.unknown ++ [UField.fixed64 f (fromLEBytes payload)] }
        else if wt = 2 then
          match decodeVarint rest with
          | none => none
          | some (len, rest2) =>
            match takeExact len rest2 with
            | none => none
            | some (payload, rest3) =>
              ParseLoop fuel rest3
                { d with unknown := d.unknown ++ [UField.lengthDelim f payload] }
        else if wt = 5 then
          match takeExact 4 rest with
          | none => none
          | some (payload, rest2) =>
            ParseLoop fuel rest2
              { d with unknown := d.unknown ++ [UField.fixed32 f (fromLEBytes payload)] }
        else none

/-- Modelled from the spec: parsing a byte buffer into a fresh `Duration`
(`ParseFromString` on a default-constructed message, driven by `_table_`). -/
def Duration.Parse (bytes : List Nat) : Option Duration :=
  ParseLoop bytes.length bytes Duration.default_instance

/-- Well-formedness of one unknown-store entry, as established by the parse
engine: a valid wire field number (1 to `2^29 - 1`), payload within the range
of its wire type, and — for VARINT entries — a field number other than 1 and
2, since a varint on those numbers is a known field and is never routed to
the unknown store. -/
def wfUField : UField → Bool
  | .varint f v => 1 ≤ f && f < 2 ^ 29 && f ≠ 1 && f ≠ 2 && v < 2 ^ 64
  | .fixed64 f v => 1 ≤ f && f < 2 ^ 29 && v < 2 ^ 64
  | .lengthDelim f payload => 1 ≤ f && f < 2 ^ 29 && payload.length < 2 ^ 64
  | .fixed32 f v => 1 ≤ f && f < 2 ^ 29 && v < 2 ^ 32

/-- Well-formedness of the whole unknown store. -/
def wfUnknown (u : List UField) : Bool := u.all wfUField

/-! ### Wire-format codec lemmas -/

theorem encodeVarintAux_ne_nil (fuel n : Nat) : encodeVarintAux fuel n ≠ [] := by
  cases fuel with
  | zero => simp [encodeVarintAux]
  | succ fuel =>
    unfold encodeVarintAux
    split <;> simp

theorem encodeVarint_ne_nil (n : Nat) : encodeVarint n ≠ [] :=
  encodeVarintAux_ne_nil 10 n

theorem encodeVarintAux_length (fuel : Nat) :
    ∀ n : Nat, (encodeVarintAux fuel n).length = varintSizeAux fuel n := by
  induction fuel with
  | zero => intro n; simp [encodeVarintAux, varintSizeAux]
  | succ fuel ih =>
    intro n
    unfold encodeVarintAux varintSizeAux
    split
    · simp
    · simp [ih, Nat.add_comm]

theorem encodeVarint_length (n : Nat) : (encodeVarint n).length = varintSize n :=
  encodeVarintAux_length 10 n

theorem decodeVarintAux_encodeVarintAux :
    ∀ (k n : Nat) (rest : List Nat), n < 128 ^ k → 1 ≤ k →
      decodeVarintAux k (encodeVarintAux k n ++ rest) = some (n, rest) := by
  intro k
  induction k with
  | zero => intro n rest _ h1; omega
  | succ k ih =>
    intro n rest hn _
    by_cases hsmall : n < 128
    · simp [encodeVarintAux, hsmall, decodeVarintAux]
    · have hk1 : 1 ≤ k := by
        rcases Nat.eq_zero_or_pos k with h0 | h
        · subst h0; simp at hn; omega
        · exact h
      have hdiv : n / 128 < 128 ^ k := by
        apply Nat.div_lt_of_lt_mul
        calc n < 128 ^ (k + 1) := hn
          _ = 128 * 128 ^ k := by ring
      have hrec := ih (n / 128) rest hdiv hk1
      simp only [encodeVarintAux, if_neg hsmall, List.cons_append]
      simp only [decodeVarintAux]
      rw [if_neg (by omega), hrec]
      simp
      omega

theorem decodeVarint_encodeVarint (n : Nat) (hn : n < 2 ^ 70) (rest : List Nat) :
    decodeVarint (encodeVarint n ++ rest) = some (n, rest) := by
  have h : (128 : Nat) ^ 10 = 2 ^ 70 := by norm_num
  exact decodeVarintAux_encodeVarintAux 10 n rest (by rw [h]; exact hn) (by norm_num)

theorem toLEBytes_length (k : Nat) : ∀ v : Nat, (toLEBytes k v).length = k := by
  induction k with
  | zero => intro v; simp [toLEBytes]
  | succ k ih => intro v; simp [toLEBytes, ih]

theorem fromLEBytes_toLEBytes (k : Nat) :
    ∀ v : Nat, v < 256 ^ k → fromLEBytes (toLEBytes k v) = v := by
  induction k with
  | zero => intro v hv; simp [toLEBytes, fromLEBytes]; omega
  | succ k ih =>
    intro v hv
    have hdiv : v / 256 < 256 ^ k := by
      apply Nat.div_lt_of_lt_mul
      calc v < 256 ^ (k + 1) := hv
        _ = 256 * 256 ^ k := by ring
    simp [toLEBytes, fromLEBytes, ih _ hdiv]
    omega

theorem takeExact_append (bs rest : List Nat) :
    takeExact bs.length (bs ++ rest) = some (bs, rest) := by
  unfold takeExact
  rw [if_pos (by simp)]
  rw [List.take_left, List.drop_left]

/-! ### Integer cast lemmas -/

theorem u64OfInt_lt (i : Int) : u64OfInt i < 2 ^ 64 := by
  unfold u64OfInt
  omega

theorem int64OfU64_u64OfInt (i : Int) (h1 : -2 ^ 63 ≤ i) (h2 : i < 2 ^ 63) :
    int64OfU64 (u64OfInt i) = i := by
  unfold int64OfU64 u64OfInt
  split <;> omega

theorem int32OfU32_u64OfInt (i : Int) (h1 : -2 ^ 31 ≤ i) (h2 : i < 2 ^ 31) :
    int32OfU32 (u64OfInt i % 2 ^ 32) = i := by
  unfold int32OfU32 u64OfInt
  split <;> omega

open Duration

/-! ### Parse-loop step lemmas -/

theorem ParseLoop_nil (fuel : Nat) (d : Duration) : ParseLoop fuel [] d = some d := by
  cases fuel <;> simp [ParseLoop]

theorem ParseLoop_seconds_step (p fuel : Nat) (rest : List Nat) (d : Duration)
    (hp : p < 2 ^ 64) :
    ParseLoop (fuel + 1) (8 :: (encodeVarint p ++ rest)) d =
      ParseLoop fuel rest { d with seconds := int64OfU64 p, hasSeconds := true } := by
  have hdec : decodeVarint (8 :: (encodeVarint p ++ rest)) =
      some (8, encodeVarint p ++ rest) := rfl
  have hp70 : p < 2 ^ 70 := lt_of_lt_of_le hp (by norm_num)
  have hdec2 := decodeVarint_encodeVarint p hp70 rest
  simp only [ParseLoop]
  rw [if_neg (by simp), hdec]
  simp only [hdec2]
  norm_num
  rw [Nat.mod_eq_of_lt (show p < 18446744073709551616 from by omega)]

theorem ParseLoop_nanos_step (p fuel : Nat) (rest : List Nat) (d : Duration)
    (hp : p < 2 ^ 64) :
    ParseLoop (fuel + 1) (16 :: (encodeVarint p ++ rest)) d =
      ParseLoop fuel rest { d with nanos := int32OfU32 (p % 2 ^ 32), hasNanos := true } := by
  have hdec : decodeVarint (16 :: (encodeVarint p ++ rest)) =
      some (16, encodeVarint p ++ rest) := rfl
  have hp70 : p < 2 ^ 70 := lt_of_lt_of_le hp (by norm_num)
  have hdec2 := decodeVarint_encodeVarint p hp70 rest
  simp only [ParseLoop]
  rw [if_neg (by simp), hdec]
  simp only [hdec2]
  norm_num

theorem ParseLoop_uField_step (u : UField) (fuel : Nat) (rest : List Nat) (d : Duration)
    (hu : wfUField u = true) :
    ParseLoop (fuel + 1) (serializeUField u ++ rest) d =
      ParseLoop fuel rest { d with unknown := d.unknown ++ [u] } := by
  have h29 : (2 : Nat) ^ 29 = 536870912 := by norm_num
  have h70 : (2 : Nat) ^ 70 = 1180591620717411303424 := by norm_num
  have h64 : (2 : Nat) ^ 64 = 18446744073709551616 := by norm_num
  cases u with
  | varint f v =>
    simp only [wfUField, Bool.and_eq_true, decide_eq_true_eq] at hu
    obtain ⟨⟨⟨⟨hf1, hf29⟩, hne1⟩, hne2⟩, hv⟩ := hu
    have htag : decodeVarint (encodeVarint (8 * f) ++ (encodeVarint v ++ rest)) =
        some (8 * f, encodeVarint v ++ rest) :=
      decodeVarint_encodeVarint _ (by omega) _
    have hval : decodeVarint (encodeVarint v ++ rest) = some (v, rest) :=
      decodeVarint_encodeVarint _ (by omega) _
    have hne : encodeVarint (8 * f) ++ (encodeVarint v ++ rest) ≠ [] := by
      intro h
      exact encodeVarint_ne_nil _ (List.append_eq_nil.mp h).1
    have hdiv : 8 * f / 8 = f := by omega
    have hmod : 8 * f % 8 = 0 := by omega
    simp only [serializeUField, List.append_assoc]
    simp only [ParseLoop]
    rw [if_neg hne, htag]
    simp only [hdiv, hmod]
    rw [if_neg (show ¬(f = 0) by omega)]
    rw [if_neg (show ¬(2 ^ 29 ≤ f) by omega)]
    rw [if_neg (show ¬(f = 1 ∧ True) by simp [hne1])]
    rw [if_neg (show ¬(f = 2 ∧ True) by simp [hne2])]
    rw [if_pos trivial, hval]
    simp
    rw [Nat.mod_eq_of_lt (show v < 18446744073709551616 from by omega)]
  | fixed64 f v =>
    simp only [wfUField, Bool.and_eq_true, decide_eq_true_eq] at hu
    obtain ⟨⟨hf1, hf29⟩, hv⟩ := hu
    have htag : decodeVarint (encodeVarint (8 * f + 1) ++ (toLEBytes 8 v ++ rest)) =
        some (8 * f + 1, toLEBytes 8 v ++ rest) :=
      decodeVarint_encodeVarint _ (by omega) _
    have hne : encodeVarint (8 * f + 1) ++ (toLEBytes 8 v ++ rest) ≠ [] := by
      intro h
      exact encodeVarint_ne_nil _ (List.append_eq_nil.mp h).1
    have hdiv : (8 * f + 1) / 8 = f := by omega
    have hmod : (8 * f + 1) % 8 = 1 := by omega
    have htake : takeExact 8 (toLEBytes 8 v ++ rest) = some (toLEBytes 8 v, rest) := by
      have h := takeExact_append (toLEBytes 8 v) rest
      rwa [toLEBytes_length] at h
    have hfrom : fromLEBytes (toLEBytes 8 v) = v :=
      fromLEBytes_toLEBytes 8 v (by norm_num; omega)
    simp only [serializeUField, List.append_assoc]
    simp only [ParseLoop]
    rw [if_neg hne, htag]
    simp only [hdiv, hmod]
    rw [if_neg (show ¬(f = 0) by omega)]
    rw [if_neg (show ¬(2 ^ 29 ≤ f) by omega)]
    rw [if_pos trivial, htake]
    simp [hfrom]
  | lengthDelim f payload =>
    simp only [wfUField, Bool.and_eq_true, decide_eq_true_eq] at hu
    obtain ⟨⟨hf1, hf29⟩, hlen⟩ := hu
    have htag : decodeVarint
        (encodeVarint (8 * f + 2) ++ (encodeVarint payload.length ++ (payload ++ rest))) =
        some (8 * f + 2, encodeVarint payload.length ++ (payload ++ rest)) :=
      decodeVarint_encodeVarint _ (by omega) _
    have hlenv : decodeVarint (encodeVarint payload.length ++ (payload ++ rest)) =
        some (payload.length, payload ++ rest) :=
      decodeVarint_encodeVarint _ (by omega) _
    have hne : encodeVarint (8 * f + 2) ++ (encodeVarint payload.length ++ (payload ++ rest)) ≠ [] := by
      intro h
      exact encodeVarint_ne_nil _ (List.append_eq_nil.mp h).1
    have hdiv : (8 * f + 2) / 8 = f := by omega
    have hmod : (8 * f + 2) % 8 = 2 := by omega
    have htake : takeExact payload.length (payload ++ rest) = some (payload, rest) :=
      takeExact_append payload rest
    simp only [serializeUField, List.append_assoc]
    simp only [ParseLoop]
    rw [if_neg hne, htag]
    simp only [hdiv, hmod]
    rw [if_neg (show ¬(f = 0) by omega)]
    rw [if_neg (show ¬(2 ^ 29 ≤ f) by omega)]
    rw [if_pos trivial, hlenv]
    simp [htake]
  | fixed32 f v =>
    simp only [wfUField, Bool.and_eq_true, decide_eq_true_eq] at hu
    obtain ⟨⟨hf1, hf29⟩, hv⟩ := hu
    have h32 : (2 : Nat) ^ 32 = 4294967296 := by norm_num
    have htag : decodeVarint (encodeVarint (8 * f + 5) ++ (toLEBytes 4 v ++ rest)) =
        some (8 * f + 5, toLEBytes 4 v ++ rest) :=
      decodeVarint_encodeVarint _ (by omega) _
    have hne : encodeVarint (8 * f + 5) ++ (toLEBytes 4 v ++ rest) ≠ [] := by
      intro h
      exact encodeVarint_ne_nil _ (List.append_eq_nil.mp h).1
    have hdiv : (8 * f + 5) / 8 = f := by omega
    have hmod : (8 * f + 5) % 8 = 5 := by omega
    have htake : takeExact 4 (toLEBytes 4 v ++ rest) = some (toLEBytes 4 v, rest) := by
      have h := takeExact_append (toLEBytes 4 v) rest
      rwa [toLEBytes_length] at h
    have hfrom : fromLEBytes (toLEBytes 4 v) = v :=
      fromLEBytes_toLEBytes 4 v (by norm_num; omega)
    simp only [serializeUField, List.append_assoc]
    simp only [ParseLoop]
    rw [if_neg hne, htag]
    simp only [hdiv, hmod]
    rw [if_neg (show ¬(f = 0) by omega)]
    rw [if_neg (show ¬(2 ^ 29 ≤ f) by omega)]
    rw [if_pos trivial, htake]
    simp [hfrom]

theorem ParseLoop_unknownFields (u : List UField) :
    ∀ (fuel : Nat) (rest : List Nat) (d : Duration), wfUnknown u = true →
      ParseLoop (u.length + fuel) (serializeUnknownFields u ++ rest) d =
        ParseLoop fuel rest { d with unknown := d.unknown ++ u } := by
  induction u with
  | nil =>
    intro fuel rest d _
    simp [serializeUnknownFields]
  | cons uf u ih =>
    intro fuel rest d hwf
    simp only [wfUnknown, List.all_cons, Bool.and_eq_true] at hwf
    obtain ⟨h1, h2⟩ := hwf
    rw [show (uf :: u).length + fuel = (u.length + fuel) + 1 from by simp [List.length_cons]; omega]
    simp only [serializeUnknownFields, List.append_assoc]
    rw [ParseLoop_uField_step uf (u.length + fuel) _ d h1]
    rw [ih fuel rest _ h2]
    simp [List.append_assoc]

theorem serializeUField_ne_nil (u : UField) : serializeUField u ≠ [] := by
  cases u <;>
    simp [serializeUField, List.append_eq_nil, encodeVarint_ne_nil]

theorem serializeUnknownFields_length_ge (u : List UField) :
    u.length ≤ (serializeUnknownFields u).length := by
  induction u with
  | nil => simp [serializeUnknownFields]
  | cons uf u ih =>
    simp only [serializeUnknownFields, List.length_append, List.length_cons]
    have h1 : 1 ≤ (serializeUField uf).length := by
      rcases h : serializeUField uf with _ | ⟨b, bs⟩
      · exact absurd h (serializeUField_ne_nil uf)
      · simp
    omega

theorem ParseLoop_secondsField (d d0 : Duration) (fuel : Nat) (rest : List Nat)
    (hiff : d.hasSeconds = true ↔ d.seconds ≠ 0)
    (hlo : -2 ^ 63 ≤ d.seconds) (hhi : d.seconds < 2 ^ 63)
    (h0v : d0.seconds = 0) (h0h : d0.hasSeconds = false) :
    ParseLoop ((if d.hasSeconds = true then 1 else 0) + fuel)
        (serializeSecondsField d ++ rest) d0 =
      ParseLoop fuel rest { d0 with seconds := d.seconds, hasSeconds := d.hasSeconds } := by
  cases hh : d.hasSeconds with
  | false =>
    have hz : d.seconds = 0 := by
      by_contra hnz
      have := hiff.mpr hnz
      rw [hh] at this
      exact Bool.false_ne_true this
    have hrec : { d0 with seconds := d.seconds, hasSeconds := false } = d0 := by
      obtain ⟨s0, n0, hs0, hn0, u0⟩ := d0
      simp_all
    rw [hrec]
    simp [serializeSecondsField, hh, hz]
  | true =>
    have hnz : d.seconds ≠ 0 := hiff.mp hh
    simp only [serializeSecondsField]
    rw [if_pos (show d.hasSeconds = true ∧ d.seconds ≠ 0 from ⟨hh, hnz⟩)]
    simp only [if_pos trivial, List.cons_append]
    rw [show 1 + fuel = fuel + 1 from Nat.add_comm 1 fuel]
    rw [ParseLoop_seconds_step _ _ _ _ (u64OfInt_lt d.seconds)]
    rw [int64OfU64_u64OfInt d.seconds hlo hhi]

theorem ParseLoop_nanosField (d d0 : Duration) (fuel : Nat) (rest : List Nat)
    (hiff : d.hasNanos = true ↔ d.nanos ≠ 0)
    (hlo : -2 ^ 31 ≤ d.nanos) (hhi : d.nanos < 2 ^ 31)
    (h0v : d0.nanos = 0) (h0h : d0.hasNanos = false) :
    ParseLoop ((if d.hasNanos = true then 1 else 0) + fuel)
        (serializeNanosField d ++ rest) d0 =
      ParseLoop fuel rest { d0 with nanos := d.nanos, hasNanos := d.hasNanos } := by
  cases hh : d.hasNanos with
  | false =>
    have hz : d.nanos = 0 := by
      by_contra hnz
      have := hiff.mpr hnz
      rw [hh] at this
      exact Bool.false_ne_true this
    have hrec : { d0 with nanos := d.nanos, hasNanos := false } = d0 := by
      obtain ⟨s0, n0, hs0, hn0, u0⟩ := d0
      simp_all
    rw [hrec]
    simp [serializeNanosField, hh, hz]
  | true =>
    have hnz : d.nanos ≠ 0 := hiff.mp hh
    simp only [serializeNanosField]
    rw [if_pos (show d.hasNanos = true ∧ d.nanos ≠ 0 from ⟨hh, hnz⟩)]
    simp only [if_pos trivial, List.cons_append]
    rw [show 1 + fuel = fuel + 1 from Nat.add_comm 1 fuel]
    rw [ParseLoop_nanos_step _ _ _ _ (u64OfInt_lt d.nanos)]
    rw [show u64OfInt d.nanos % 2 ^ 32 = u64OfInt d.nanos % 2 ^ 32 from rfl]
    rw [int32OfU32_u64OfInt d.nanos hlo hhi]

/-- C1 (amended): round-trip through serialize and parse, for instances whose
presence bits agree with value-nonzero (as every instance reachable through
parsing or through the generated setters does), whose values are in their
C++ storage ranges, and whose unknown store is well formed. -/
theorem Duration_parse_serialize_roundtrip (d : Duration)
    (hs : d.hasSeconds = true ↔ d.seconds ≠ 0)
    (hn : d.hasNanos = true ↔ d.nanos ≠ 0)
    (hslo : -2 ^ 63 ≤ d.seconds) (hshi : d.seconds < 2 ^ 63)
    (hnlo : -2 ^ 31 ≤ d.nanos) (hnhi : d.nanos < 2 ^ 31)
    (hu : wfUnknown d.unknown = true) :
    Duration.Parse (Duration.InternalSerialize d) = some d := by
  have key : ∀ slack : Nat,
      ParseLoop ((if d.hasSeconds = true then 1 else 0) +
          ((if d.hasNanos = true then 1 else 0) + (d.unknown.length + slack)))
        (serializeSecondsField d ++ (serializeNanosField d ++ serializeUnknownFields d.unknown))
        Duration.default_instance = some d := by
    intro slack
    rw [ParseLoop_secondsField d Duration.default_instance _ _ hs hslo hshi rfl rfl]
    rw [ParseLoop_nanosField d
      { Duration.default_instance with seconds := d.seconds, hasSeconds := d.hasSeconds }
      _ _ hn hnlo hnhi rfl rfl]
    rw [show serializeUnknownFields d.unknown
        = serializeUnknownFields d.unknown ++ [] from (List.append_nil _).symm]
    rw [ParseLoop_unknownFields d.unknown slack [] _ hu]
    rw [ParseLoop_nil]
    simp [Duration.default_instance]
  have hl1 : (if d.hasSeconds = true then 1 else 0) ≤ (serializeSecondsField d).length := by
    by_cases hh : d.hasSeconds = true
    · have hnz := hs.mp hh
      rw [if_pos hh]
      rw [show serializeSecondsField d = 8 :: encodeVarint (u64OfInt d.seconds) from by
        simp [serializeSecondsField, hh, hnz]]
      simp only [List.length_cons]
      omega
    · rw [if_neg hh]
      exact Nat.zero_le _
  have hl2 : (if d.hasNanos = true then 1 else 0) ≤ (serializeNanosField d).length := by
    by_cases hh : d.hasNanos = true
    · have hnz := hn.mp hh
      rw [if_pos hh]
      rw [show serializeNanosField d = 16 :: encodeVarint (u64OfInt d.nanos) from by
        simp [serializeNanosField, hh, hnz]]
      simp only [List.length_cons]
      omega
    · rw [if_neg hh]
      exact Nat.zero_le _
  have hl3 := serializeUnknownFields_length_ge d.unknown
  unfold Duration.Parse Duration.InternalSerialize
  rw [List.append_assoc]
  rw [show (serializeSecondsField d ++ (serializeNanosField d ++ serializeUnknownFields d.unknown)).length
      = (if d.hasSeconds = true then 1 else 0) +
        ((if d.hasNanos = true then 1 else 0) +
          (d.unknown.length +
            ((serializeSecondsField d ++
                (serializeNanosField d ++ serializeUnknownFields d.unknown)).length
              - (if d.hasSeconds = true then 1 else 0)
              - (if d.hasNanos = true then 1 else 0) - d.unknown.length)))
      from by simp only [List.length_append]; omega]
  exact key _

/-! ### Claim theorems -/

/-- A `Duration` with `seconds` marked present but equal to zero, as produced
by the generated setter `set_seconds(0)`. -/
def presentZeroSeconds : Duration :=
  { seconds := 0, nanos := 0, hasSeconds := true, hasNanos := false, unknown := [] }

/-- C1 (counterexample): round-tripping is not exact for every combination of
values and presence bits — a `seconds` field marked present with stored value
zero serializes to no bytes at all, so the reparsed instance reports
`Has(seconds) = false` while the original reports `true`. -/
theorem C1_roundtrip_counterexample :
    Duration.Parse (Duration.InternalSerialize presentZeroSeconds) =
      some Duration.default_instance ∧
    Duration.default_instance.hasSeconds ≠ presentZeroSeconds.hasSeconds := by
  decide

/-- A concrete fully-featured instance for the round-trip witness: negative
values in both fields and one unknown entry of every wire type, including a
wire-type-mismatched FIXED32 on field number 1. -/
def roundtripWitnessInstance : Duration :=
  { seconds := -1, nanos := -2, hasSeconds := true, hasNanos := true,
    unknown := [UField.varint 3 5, UField.fixed32 1 9,
                UField.lengthDelim 4 [1, 2], UField.fixed64 6 258] }

/-- C1 (witness): the round-trip theorem applied at a concrete instance. -/
theorem Duration_parse_serialize_roundtrip_witness :
    ((roundtripWitnessInstance.hasSeconds = true ↔ roundtripWitnessInstance.seconds ≠ 0) ∧
      (roundtripWitnessInstance.hasNanos = true ↔ roundtripWitnessInstance.nanos ≠ 0) ∧
      -2 ^ 63 ≤ roundtripWitnessInstance.seconds ∧ roundtripWitnessInstance.seconds < 2 ^ 63 ∧
      -2 ^ 31 ≤ roundtripWitnessInstance.nanos ∧ roundtripWitnessInstance.nanos < 2 ^ 31 ∧
      wfUnknown roundtripWitnessInstance.unknown = true) ∧
    Duration.Parse (Duration.InternalSerialize roundtripWitnessInstance) =
      some roundtripWitnessInstance :=
  ⟨by decide,
   Duration_parse_serialize_roundtrip roundtripWitnessInstance (by decide) (by decide)
     (by decide) (by decide) (by decide) (by decide) (by decide)⟩

/-- C2: parsing `08 96 01 10 07` into a fresh message yields `seconds = 150`,
`nanos = 7`, both present; serializing that instance reproduces exactly those
five bytes; clearing `nanos` and re-serializing yields exactly `08 96 01`. -/
theorem C2_concrete_scenario :
    Duration.Parse [0x08, 0x96, 0x01, 0x10, 0x07] =
      some { seconds := 150, nanos := 7, hasSeconds := true, hasNanos := true, unknown := [] } ∧
    Duration.InternalSerialize
      { seconds := 150, nanos := 7, hasSeconds := true, hasNanos := true, unknown := [] } =
      [0x08, 0x96, 0x01, 0x10, 0x07] ∧
    Duration.InternalSerialize
      (Duration.clear_nanos
        { seconds := 150, nanos := 7, hasSeconds := true, hasNanos := true, unknown := [] }) =
      [0x08, 0x96, 0x01] := by
  decide

/-- Merge destination whose `seconds` is present and nonzero. -/
def mergeDstFive : Duration :=
  { seconds := 5, nanos := 0, hasSeconds := true, hasNanos := false, unknown := [] }

/-- Merge source whose `seconds` is present but stores the default zero. -/
def mergeSrcZero : Duration :=
  { seconds := 0, nanos := 0, hasSeconds := true, hasNanos := false, unknown := [] }

/-- C3 (counterexample): `MergeImpl` does not overwrite the destination value
when the source field is present with value zero — the source guards each
copy with `from._internal_seconds() != 0` — so merging a present-but-zero
source into a destination holding 5 leaves 5, not 0. -/
theorem C3_merge_counterexample :
    mergeDstFive ≠ mergeSrcZero ∧
    mergeSrcZero.hasSeconds = true ∧
    (Duration.MergeImpl mergeDstFive mergeSrcZero).seconds ≠ mergeSrcZero.seconds := by
  decide

/-- C3 (amended): for a singular scalar field present in the source,
`MergeImpl` sets the destination presence bit always, but overwrites the
destination value only when the source value is nonzero; a present source
field storing the default zero leaves the destination value unchanged. -/
theorem C3_merge_overwrite_amended (dst src : Duration) (hne : dst ≠ src) :
    (src.hasSeconds = true → src.seconds ≠ 0 →
      (Duration.MergeImpl dst src).seconds = src.seconds ∧
      (Duration.MergeImpl dst src).hasSeconds = true) ∧
    (src.hasSeconds = true → src.seconds = 0 →
      (Duration.MergeImpl dst src).seconds = dst.seconds ∧
      (Duration.MergeImpl dst src).hasSeconds = true) ∧
    (src.hasNanos = true → src.nanos ≠ 0 →
      (Duration.MergeImpl dst src).nanos = src.nanos ∧
      (Duration.MergeImpl dst src).hasNanos = true) ∧
    (src.hasNanos = true → src.nanos = 0 →
      (Duration.MergeImpl dst src).nanos = dst.nanos ∧
      (Duration.MergeImpl dst src).hasNanos = true) := by
  refine ⟨?_, ?_, ?_, ?_⟩ <;> intro hh hv <;> simp [Duration.MergeImpl, hh, hv]

/-- Merge source with both fields present and nonzero. -/
def mergeSrcNonzero : Duration :=
  { seconds := 7, nanos := 9, hasSeconds := true, hasNanos := true, unknown := [] }

/-- C3 (witness): the amended merge theorem applied at a concrete pair. -/
theorem C3_merge_overwrite_amended_witness :
    (mergeDstFive ≠ mergeSrcNonzero ∧ mergeSrcNonzero.hasSeconds = true ∧
      mergeSrcNonzero.seconds ≠ 0) ∧
    (Duration.MergeImpl mergeDstFive mergeSrcNonzero).seconds = mergeSrcNonzero.seconds ∧
    (Duration.MergeImpl mergeDstFive mergeSrcNonzero).hasSeconds = true :=
  ⟨by decide,
   (C3_merge_overwrite_amended mergeDstFive mergeSrcNonzero (by decide)).1
     (by decide) (by decide)⟩

theorem serializeUnknownFields_append (u1 u2 : List UField) :
    serializeUnknownFields (u1 ++ u2) =
      serializeUnknownFields u1 ++ serializeUnknownFields u2 := by
  induction u1 with
  | nil => simp [serializeUnknownFields]
  | cons uf u1 ih => simp [serializeUnknownFields, ih]

/-- C4: `_InternalSerialize` emits the known fields in ascending field-number
order — the whole output is the field-1 segment, then the field-2 segment,
then the unknown-field store; each nonempty known segment starts with its own
tag (`0x08` for seconds, `0x10` for nanos); and the unknown store is emitted
order-preservingly (serialization distributes over concatenation of
entries). -/
theorem C4_field_order (d : Duration) :
    Duration.InternalSerialize d =
      serializeSecondsField d ++ serializeNanosField d ++ serializeUnknownFields d.unknown ∧
    (serializeSecondsField d = [] ∨ (serializeSecondsField d).head? = some 8) ∧
    (serializeNanosField d = [] ∨ (serializeNanosField d).head? = some 16) ∧
    (∀ u1 u2 : List UField,
      serializeUnknownFields (u1 ++ u2) =
        serializeUnknownFields u1 ++ serializeUnknownFields u2) := by
  refine ⟨rfl, ?_, ?_, serializeUnknownFields_append⟩
  · unfold serializeSecondsField
    split
    · right; rfl
    · left; rfl
  · unfold serializeNanosField
    split
    · right; rfl
    · left; rfl

theorem serializeSecondsField_length (d : Duration) :
    (serializeSecondsField d).length = secondsByteSize d := by
  unfold serializeSecondsField secondsByteSize
  split
  · simp [encodeVarint_length]
  · rfl

theorem serializeNanosField_length (d : Duration) :
    (serializeNanosField d).length = nanosByteSize d := by
  unfold serializeNanosField nanosByteSize
  split
  · simp [encodeVarint_length]
  · rfl

theorem serializeUField_length (u : UField) :
    (serializeUField u).length = uFieldByteSize u := by
  cases u <;>
    simp [serializeUField, uFieldByteSize, List.length_append,
      encodeVarint_length, toLEBytes_length, Nat.add_assoc]

theorem serializeUnknownFields_length (u : List UField) :
    (serializeUnknownFields u).length = unknownFieldsByteSize u := by
  induction u with
  | nil => rfl
  | cons uf u ih =>
    simp [serializeUnknownFields, unknownFieldsByteSize, List.length_append,
      serializeUField_length, ih]

/-- C5: the independent sizing pass `ByteSizeLong` returns exactly the number
of bytes `_InternalSerialize` writes, for every instance. -/
theorem C5_bytesize_eq_serialized_length (d : Duration) :
    Duration.ByteSizeLong d = (Duration.InternalSerialize d).length := by
  simp [Duration.ByteSizeLong, Duration.InternalSerialize, List.length_append,
    serializeSecondsField_length, serializeNanosField_length,
    serializeUnknownFields_length, Nat.add_assoc]

/-- C6: a field whose stored value is the type default zero contributes no
bytes to the serialized output and no bytes to `ByteSizeLong`, regardless of
its presence bit — both guards test `value != 0` after the has-bit. -/
theorem C6_default_value_omitted (d : Duration) :
    (d.seconds = 0 →
      Duration.InternalSerialize d =
        serializeNanosField d ++ serializeUnknownFields d.unknown ∧
      Duration.ByteSizeLong d = nanosByteSize d + unknownFieldsByteSize d.unknown) ∧
    (d.nanos = 0 →
      Duration.InternalSerialize d =
        serializeSecondsField d ++ serializeUnknownFields d.unknown ∧
      Duration.ByteSizeLong d = secondsByteSize d + unknownFieldsByteSize d.unknown) := by
  constructor
  · intro hz
    constructor
    · simp [Duration.InternalSerialize, serializeSecondsField, hz]
    · simp [Duration.ByteSizeLong, secondsByteSize, hz]
  · intro hz
    constructor
    · simp [Duration.InternalSerialize, serializeNanosField, hz]
    · simp [Duration.ByteSizeLong, nanosByteSize, hz]

/-- Instance with both fields zero but marked present, plus an unknown entry.
-/
def bothZeroPresent : Duration :=
  { seconds := 0, nanos := 0, hasSeconds := true, hasNanos := true,
    unknown := [UField.varint 3 1] }

/-- C6 (witness): default-value omission applied at a concrete instance. -/
theorem C6_default_value_omitted_witness :
    (bothZeroPresent.seconds = 0 ∧ bothZeroPresent.nanos = 0) ∧
    Duration.InternalSerialize bothZeroPresent =
      serializeNanosField bothZeroPresent ++
        serializeUnknownFields bothZeroPresent.unknown ∧
    Duration.ByteSizeLong bothZeroPresent =
      nanosByteSize bothZeroPresent + unknownFieldsByteSize bothZeroPresent.unknown :=
  ⟨by decide, (C6_default_value_omitted bothZeroPresent).1 (by decide)⟩

/-- Instance with both fields marked present and storing the default zero. -/
def presentDefaults : Duration :=
  { seconds := 0, nanos := 0, hasSeconds := true, hasNanos := true, unknown := [] }

/-- C7 (counterexample): although `seconds` and `nanos` carry presence bits,
marking them present while storing the default zero does not make
`_InternalSerialize` emit any bytes — the value guard suppresses them — so
these fields do not behave as explicit-presence fields on the wire. -/
theorem C7_present_default_counterexample :
    presentDefaults.hasSeconds = true ∧ presentDefaults.seconds = 0 ∧
    presentDefaults.hasNanos = true ∧ presentDefaults.nanos = 0 ∧
    Duration.InternalSerialize presentDefaults = [] := by
  decide

/-- C7 (amended): for these fields the presence bit alone never forces
emission — a field's bytes are emitted exactly when its presence bit is set
and its stored value is nonzero. -/
theorem C7_emission_iff_present_and_nonzero (d : Duration) :
    (serializeSecondsField d ≠ [] ↔ d.hasSeconds = true ∧ d.seconds ≠ 0) ∧
    (serializeNanosField d ≠ [] ↔ d.hasNanos = true ∧ d.nanos ≠ 0) := by
  constructor
  · by_cases h : d.hasSeconds = true ∧ d.seconds ≠ 0 <;> simp [serializeSecondsField, h]
  · by_cases h : d.hasNanos = true ∧ d.nanos ≠ 0 <;> simp [serializeNanosField, h]

/-- C8: after `Clear()` both presence bits are false, both stored values are
zero, the unknown store is empty, and `ByteSizeLong` is 0; clearing twice
equals clearing once.  The hypothesis states the invariant every reachable
instance satisfies (a value can only become nonzero through a write that also
sets its presence bit): when both has-bits are clear, both values are zero —
`Clear` only runs its `memset` when some has-bit is set. -/
theorem C8_clear_idempotent_and_empty (d : Duration)
    (hinv : d.hasSeconds = false → d.hasNanos = false → d.seconds = 0 ∧ d.nanos = 0) :
    Duration.Clear (Duration.Clear d) = Duration.Clear d ∧
    (Duration.Clear d).hasSeconds = false ∧ (Duration.Clear d).hasNanos = false ∧
    (Duration.Clear d).seconds = 0 ∧ (Duration.Clear d).nanos = 0 ∧
    (Duration.Clear d).unknown = [] ∧
    Duration.ByteSizeLong (Duration.Clear d) = 0 := by
  by_cases hb : d.hasSeconds = true ∨ d.hasNanos = true
  · simp [Duration.Clear, hb, Duration.ByteSizeLong, secondsByteSize,
      nanosByteSize, unknownFieldsByteSize]
  · have h1 : d.hasSeconds = false := by
      cases h : d.hasSeconds
      · rfl
      · exact absurd (Or.inl h) hb
    have h2 : d.hasNanos = false := by
      cases h : d.hasNanos
      · rfl
      · exact absurd (Or.inr h) hb
    obtain ⟨hz1, hz2⟩ := hinv h1 h2
    simp [Duration.Clear, hb, hz1, hz2, Duration.ByteSizeLong, secondsByteSize,
      nanosByteSize, unknownFieldsByteSize]

/-- Instance used as the concrete input of several witnesses: nonzero fields,
both present, one unknown entry. -/
def richInstance : Duration :=
  { seconds := 5, nanos := 6, hasSeconds := true, hasNanos := true,
    unknown := [UField.varint 3 4] }

/-- C8 (witness): the clear theorem applied at a concrete instance. -/
theorem C8_clear_idempotent_and_empty_witness :
    (richInstance.hasSeconds = false → richInstance.hasNanos = false →
      richInstance.seconds = 0 ∧ richInstance.nanos = 0) ∧
    Duration.Clear (Duration.Clear richInstance) = Duration.Clear richInstance ∧
    Duration.ByteSizeLong (Duration.Clear richInstance) = 0 :=
  ⟨by decide,
   (C8_clear_idempotent_and_empty richInstance (by decide)).1,
   (C8_clear_idempotent_and_empty richInstance (by decide)).2.2.2.2.2.2⟩

/-- C9: `MergeImpl` ORs the two presence sets — the destination bits are
never dropped (`_has_bits_[0] |= cached_has_bits`) — and the merged unknown
store is the destination's entries followed by the source's. -/
theorem C9_merge_union_and_unknown_append (dst src : Duration) (hne : dst ≠ src) :
    (Duration.MergeImpl dst src).hasSeconds = (dst.hasSeconds || src.hasSeconds) ∧
    (Duration.MergeImpl dst src).hasNanos = (dst.hasNanos || src.hasNanos) ∧
    (Duration.MergeImpl dst src).unknown = dst.unknown ++ src.unknown := by
  simp [Duration.MergeImpl]

/-- A second instance, distinct from `richInstance`, for the merge witness. -/
def otherInstance : Duration :=
  { seconds := 0, nanos := -3, hasSeconds := false, hasNanos := true,
    unknown := [UField.fixed32 9 2] }

/-- C9 (witness): the merge-union theorem applied at a concrete distinct
pair. -/
theorem C9_merge_union_and_unknown_append_witness :
    richInstance ≠ otherInstance ∧
    ((Duration.MergeImpl richInstance otherInstance).hasSeconds =
        (richInstance.hasSeconds || otherInstance.hasSeconds) ∧
      (Duration.MergeImpl richInstance otherInstance).hasNanos =
        (richInstance.hasNanos || otherInstance.hasNanos) ∧
      (Duration.MergeImpl richInstance otherInstance).unknown =
        richInstance.unknown ++ otherInstance.unknown) :=
  ⟨by decide, C9_merge_union_and_unknown_append richInstance otherInstance (by decide)⟩

/-- C10: `CopyFrom` with the instance itself as source returns immediately
(`if (&from == this) return;`), leaving values, presence bits and unknown
fields untouched, whereas the Clear-then-Merge path applied to the aliased
(already cleared) source would erase the state — shown both in general (the
aliased Clear-then-Merge collapses to `Clear`) and on a concrete instance
whose state it would destroy. -/
theorem C10_self_copy_is_noop :
    (∀ d : Duration, Duration.CopyFrom d d true = d) ∧
    (∀ d : Duration,
      Duration.MergeImpl (Duration.Clear d) (Duration.Clear d) = Duration.Clear d) ∧
    Duration.MergeImpl (Duration.Clear richInstance) (Duration.Clear richInstance) ≠
      richInstance := by
  refine ⟨fun d => rfl, fun d => ?_, by decide⟩
  simp [Duration.Clear, Duration.MergeImpl]
